import Mathlib

/-!
Verification of the hack-v1 scheduling/analysis core (`analyzer.js`,
`hack-v1/scheduler.js`, and the operation tracker of the combined scheduler).

Embedding conventions:
* JS floating-point quantities (RAM in GB, money, security levels, times in
  ms) are modelled as exact rationals `ℚ`; every constant of the source
  (`1.75`, `0.05`, `0.002`, `0.004`, `0.1`, `0.99`, `20`) is exactly
  representable, and the claims under study are arithmetic claims.
* Thread counts are `ℤ` (`Math.floor`/`Math.ceil` of a JS number).
* External game primitives (`ns.growthAnalyze`, `ns.hackAnalyzeThreads`,
  per-server times and chances) are not part of this repository; they enter
  as function parameters, or as fields of a per-server snapshot record.
* `ns.exec` may fail (return pid 0) or throw; dispatch success is modelled
  by an oracle `oracle : ℕ → Bool` consulted once per exec attempt, with a
  running attempt counter `k`.
-/

/-- Security removed per weaken thread (`WEAKEN_AMOUNT = 0.05`). -/
def WEAKEN_AMOUNT : ℚ := 1/20

/-- Security added per hack thread (`HACK_SECURITY_INCREASE = 0.002`). -/
def HACK_SECURITY_INCREASE : ℚ := 1/500

/-- Security added per grow thread (`GROW_SECURITY_INCREASE = 0.004`). -/
def GROW_SECURITY_INCREASE : ℚ := 1/250

/-- RAM cost of one worker thread (`WORKER_RAM = 1.75`). -/
def WORKER_RAM : ℚ := 7/4

/-- Fraction of max money one batch hacks (`HACK_PERCENT = 0.05`). -/
def HACK_PERCENT : ℚ := 1/20

/-- Point-in-time snapshot of one target server, as read through
`ns.getServerSecurityLevel` / `ns.getServerMinSecurityLevel` /
`ns.getServerMoneyAvailable` / `ns.getServerMaxMoney`. -/
structure TargetSnap where
  currentSec : ℚ
  minSec : ℚ
  currentMoney : ℚ
  maxMoney : ℚ
deriving Repr, DecidableEq

/-- Model of `isPrepped` from `analyzer.js`: a server is prepped when security is
within `0.1` of the minimum and money is at least `99%` of the maximum. -/
def isPrepped (s : TargetSnap) : Bool :=
  let secPrepped := decide (s.currentSec ≤ s.minSec + 1/10)
  let moneyPrepped := decide (s.currentMoney ≥ s.maxMoney * (99/100))
  secPrepped && moneyPrepped

/-- Model of `getPrepNeeds` from `analyzer.js`.  `g` is the external
`ns.growthAnalyze(target, ·)` for the fixed target: multiplier ↦ estimated
threads.  Returns `(weakenThreads, growThreads)`. -/
def getPrepNeeds (g : ℚ → ℚ) (s : TargetSnap) : ℤ × ℤ :=
  let secToReduce := max 0 (s.currentSec - s.minSec)
  let weakenThreads := ⌈secToReduce / WEAKEN_AMOUNT⌉
  let growThreads : ℤ :=
    if s.currentMoney < s.maxMoney * (99/100) then
      let baseMoney := max s.currentMoney 1
      let multiplier := s.maxMoney / baseMoney
      ⌈g multiplier⌉
    else 0
  (weakenThreads, growThreads)

/-- Model of `calculateBatchSize` from `analyzer.js`.  `hAT` is the external
`ns.hackAnalyzeThreads(target, ·)` (money ↦ threads) and `g` is
`ns.growthAnalyze(target, ·)`.  Returns
`(hackThreads, growThreads, weakenThreads)`. -/
def calculateBatchSize (hAT g : ℚ → ℚ) (s : TargetSnap) (hackPercent : ℚ) :
    ℤ × ℤ × ℤ :=
  let moneyToSteal := s.maxMoney * hackPercent
  let hackThreads := max 1 ⌊hAT moneyToSteal⌋
  let growMultiplier := 1 / (1 - hackPercent)
  let growThreads := ⌈g growMultiplier⌉
  let hackSecIncrease := (hackThreads : ℚ) * HACK_SECURITY_INCREASE
  let growSecIncrease := (growThreads : ℚ) * GROW_SECURITY_INCREASE
  let totalSecIncrease := hackSecIncrease + growSecIncrease
  let weakenThreads := ⌈totalSecIncrease / WEAKEN_AMOUNT⌉
  (hackThreads, growThreads, weakenThreads)

/-- One entry of the RAM pool built by `buildRamPool` in
`hack-v1/scheduler.js`, and mutated in place by `scheduleOperation`. -/
structure PoolEntry where
  hostname : String
  maxRam : ℚ
  usedRam : ℚ
  freeRam : ℚ
deriving Repr, DecidableEq

/-- Input snapshot of one server as seen by `buildRamPool`:
`ns.hasRootAccess`, `ns.getServerMaxRam`, `ns.getServerUsedRam`. -/
structure ServerInfo where
  hostname : String
  rooted : Bool
  maxRam : ℚ
  usedRam : ℚ
deriving Repr, DecidableEq

/-- The loop body of `buildRamPool` for one server: `none` when the server
is skipped, `some entry` when it is pushed onto the pool.  On `"home"`,
20 GB are reserved (`adjustedFree = max(0, freeRam - 20)`) and the entry is
admitted only if the adjusted free RAM exceeds `WORKER_RAM`; any other
rooted server is admitted iff its free RAM exceeds `WORKER_RAM`. -/
def admitServer (s : ServerInfo) : Option PoolEntry :=
  if s.rooted = false then none
  else
    let maxRam := s.maxRam
    let usedRam := s.usedRam
    let freeRam := maxRam - usedRam
    if s.hostname = "home" then
      let reservedRam : ℚ := 20
      let adjustedFree := max 0 (freeRam - reservedRam)
      if WORKER_RAM < adjustedFree then
        some ⟨s.hostname, maxRam, usedRam + reservedRam, adjustedFree⟩
      else none
    else if WORKER_RAM < freeRam then
      some ⟨s.hostname, maxRam, usedRam, freeRam⟩
    else none

/-- Descending order on pool entries used by
`pool.sort((a, b) => b.freeRam - a.freeRam)`. -/
def freeGE (a b : PoolEntry) : Prop := b.freeRam ≤ a.freeRam

instance : DecidableRel freeGE :=
  fun a b => inferInstanceAs (Decidable (b.freeRam ≤ a.freeRam))

instance : IsTotal PoolEntry freeGE :=
  ⟨fun a b => le_total b.freeRam a.freeRam⟩

instance : IsTrans PoolEntry freeGE :=
  ⟨fun _ _ _ h1 h2 => le_trans h2 h1⟩

/-- Model of `buildRamPool` from `hack-v1/scheduler.js`: admit each server via
`admitServer`, then sort descending by free RAM. -/
def buildRamPool (servers : List ServerInfo) : List PoolEntry :=
  List.insertionSort freeGE (servers.filterMap admitServer)

/-- Threads one pool entry can host:
`Math.floor(server.freeRam / WORKER_RAM)`. -/
def threadsAvailable (e : PoolEntry) : ℤ := ⌊e.freeRam / WORKER_RAM⌋

/-- Model of `scheduleOperation` from `hack-v1/scheduler.js`: walk the pool in
order, place `min(threadsRemaining, threadsAvailable)` threads per node,
and on a successful exec (oracle true at the current attempt counter)
record the deployment and mutate the `freeRam`/`usedRam` of the node in place.
Returns `(mutated pool, threadsRemaining, deployments, attempt counter)`;
the v1 source returns `anyScheduled`, i.e. the deployments list being
nonempty. -/
def scheduleOperation (oracle : ℕ → Bool) (k : ℕ) (rem : ℤ) :
    List PoolEntry → List PoolEntry × ℤ × List (String × ℤ) × ℕ
  | [] => ([], rem, [], k)
  | e :: rest =>
    if rem ≤ 0 then (e :: rest, rem, [], k)
    else
      let avail := threadsAvailable e
      if avail ≤ 0 then
        let r := scheduleOperation oracle k rem rest
        (e :: r.1, r.2.1, r.2.2.1, r.2.2.2)
      else
        let toRun := min rem avail
        if oracle k then
          let ramUsed := (toRun : ℚ) * WORKER_RAM
          let e2 : PoolEntry :=
            ⟨e.hostname, e.maxRam, e.usedRam + ramUsed, e.freeRam - ramUsed⟩
          let r := scheduleOperation oracle (k + 1) (rem - toRun) rest
          (e2 :: r.1, r.2.1, (e.hostname, toRun) :: r.2.2.1, r.2.2.2)
        else
          let r := scheduleOperation oracle (k + 1) rem rest
          (e :: r.1, r.2.1, r.2.2.1, r.2.2.2)

/-- The three worker kinds dispatched by the scheduler. -/
inductive OpType where
  | hack
  | grow
  | weaken
deriving Repr, DecidableEq

/-- Model of `schedulePrepOperations` from `hack-v1/scheduler.js`: weaken has
priority; grow is attempted only when no weaken threads are needed.  The
first component records the `scheduleOperation` calls made (kind and
requested thread count), in order. -/
def schedulePrepOperations (g : ℚ → ℚ) (s : TargetSnap) (oracle : ℕ → Bool)
    (k : ℕ) (pool : List PoolEntry) :
    List (OpType × ℤ) × List PoolEntry × Bool × ℕ :=
  let prepNeeds := getPrepNeeds g s
  if 0 < prepNeeds.1 then
    let r := scheduleOperation oracle k prepNeeds.1 pool
    ([(OpType.weaken, prepNeeds.1)], r.1, !r.2.2.1.isEmpty, r.2.2.2)
  else if 0 < prepNeeds.2 then
    let r := scheduleOperation oracle k prepNeeds.2 pool
    ([(OpType.grow, prepNeeds.2)], r.1, !r.2.2.1.isEmpty, r.2.2.2)
  else ([], pool, false, k)

/-- Model of `scheduleHWGWBatch` from `hack-v1/scheduler.js`: unconditionally issue
the three `scheduleOperation` calls hack, then grow, then weaken, each on
the pool as mutated by the previous one.  The first component records the
calls made (kind and requested thread count), in order. -/
def scheduleHWGWBatch (hAT g : ℚ → ℚ) (s : TargetSnap) (oracle : ℕ → Bool)
    (k : ℕ) (pool : List PoolEntry) :
    List (OpType × ℤ) × List PoolEntry × Bool × ℕ :=
  let batch := calculateBatchSize hAT g s HACK_PERCENT
  let r1 := scheduleOperation oracle k batch.1 pool
  let r2 := scheduleOperation oracle r1.2.2.2 batch.2.1 r1.1
  let r3 := scheduleOperation oracle r2.2.2.2 batch.2.2 r2.1
  ([(OpType.hack, batch.1), (OpType.grow, batch.2.1), (OpType.weaken, batch.2.2)],
   r3.1,
   !r1.2.2.1.isEmpty || !r2.2.2.1.isEmpty || !r3.2.2.1.isEmpty,
   r3.2.2.2)

/-- Value of `sharedState.operationStartTimes[pid]` in the combined
scheduler (`src/unnamed/part_001`). -/
structure OpInfo where
  target : String
  type : OpType
  startTime : ℚ
deriving Repr, DecidableEq

/-- The pruning step at the end of `getActiveOperations`
(`src/unnamed/part_001`): delete every tracked pid that is not in the
fleet-wide set of live pids collected from `ns.ps` on every server. -/
def pruneOperationStartTimes (tracked : List (ℕ × OpInfo))
    (allRunningPids : List ℕ) : List (ℕ × OpInfo) :=
  tracked.filter (fun e => allRunningPids.contains e.1)

/-- Total free RAM of a pool (the capacity `C` of the allocator claims). -/
def poolFree (pool : List PoolEntry) : ℚ := (pool.map PoolEntry.freeRam).sum

/-- Total threads the pool can host, one `floor` per node. -/
def poolThreads (pool : List PoolEntry) : ℤ :=
  (pool.map threadsAvailable).sum

/-- Snapshot of one candidate server as consumed by `getBestTargets` /
`calculateTargetScore`: the `ns.getServer` fields used, together with the
external per-server query results (`ns.getHackTime`, `ns.getWeakenTime`,
`ns.getGrowTime`, `ns.hackAnalyzeChance`), which are fixed numbers for a
given server in a given snapshot. -/
structure ServerEntry where
  hostname : String
  requiredHackingSkill : ℚ
  moneyMax : ℚ
  hackDifficulty : ℚ
  minDifficulty : ℚ
  moneyAvailable : ℚ
  hackTime : ℚ
  weakenTime : ℚ
  growTime : ℚ
  hackChance : ℚ
deriving Repr, DecidableEq

/-- Model of `calculateTargetScore` from `analyzer.js`. -/
def calculateTargetScore (s : ServerEntry) : ℚ :=
  let secToReduce := max 0 (s.hackDifficulty - s.minDifficulty)
  let prepWeakenTime := secToReduce / WEAKEN_AMOUNT * s.weakenTime
  let prepGrowTime := if s.moneyAvailable < s.moneyMax * (1/2) then s.growTime * 10 else 0
  let totalPrepTime := prepWeakenTime + prepGrowTime
  let hackPercent : ℚ := 1/20
  let moneyPerHack := s.moneyMax * hackPercent * s.hackChance
  let cycleTime := max s.hackTime (max s.weakenTime s.growTime)
  let moneyPerSecond := moneyPerHack / (cycleTime / 1000)
  moneyPerSecond / (1 + totalPrepTime / 3600000)

/-- One element of the list returned by `getBestTargets`. -/
structure Scored where
  hostname : String
  score : ℚ
deriving Repr, DecidableEq

/-- Descending order on scored targets used by
`scored.sort((a, b) => b.score - a.score)`. -/
def scoreGE (a b : Scored) : Prop := b.score ≤ a.score

instance : DecidableRel scoreGE :=
  fun a b => inferInstanceAs (Decidable (b.score ≤ a.score))

instance : IsTotal Scored scoreGE :=
  ⟨fun a b => le_total b.score a.score⟩

instance : IsTrans Scored scoreGE :=
  ⟨fun _ _ _ h1 h2 => le_trans h2 h1⟩

/-- The JS test `hostname.startsWith("worker-")`, modelled as the
character-prefix test on the underlying character lists. -/
def startsWithWorker (h : String) : Bool :=
  List.isPrefixOf "worker-".data h.data

/-- The loop body of `getBestTargets` for one server: skip `"home"`,
purchased `worker-` servers, servers above the hacking skill of the player, and
servers with no money; otherwise score it. -/
def scoreServer (playerSkill : ℚ) (s : ServerEntry) : Option Scored :=
  if s.hostname = "home" ∨ startsWithWorker s.hostname then none
  else if playerSkill < s.requiredHackingSkill then none
  else if s.moneyMax = 0 then none
  else some ⟨s.hostname, calculateTargetScore s⟩

/-- Model of `getBestTargets` from `analyzer.js`, parameterised by the server list
the BFS scan (`getAllServers`) would produce: filter and score every
candidate, sort descending by score, return the first `count`. -/
def getBestTargets (servers : List ServerEntry) (playerSkill : ℚ)
    (count : ℕ) : List Scored :=
  (List.insertionSort scoreGE (servers.filterMap (scoreServer playerSkill))).take count

/-- C2: `isPrepped` returns true iff `currentSec ≤ minSec + 0.1` and
`currentMoney ≥ maxMoney × 0.99`; both conditions are required, either one
failing makes the result false. -/
theorem isPrepped_iff (s : TargetSnap) :
    isPrepped s = true ↔
      s.currentSec ≤ s.minSec + 1/10 ∧ s.currentMoney ≥ s.maxMoney * (99/100) := by
  simp [isPrepped]

theorem threadsAvailable_nonneg (e : PoolEntry) (h : 0 ≤ e.freeRam) :
    0 ≤ threadsAvailable e := by
  apply Int.floor_nonneg.mpr
  exact div_nonneg h (by norm_num [WORKER_RAM])

theorem poolThreads_nonneg (pool : List PoolEntry)
    (h : ∀ e ∈ pool, 0 ≤ e.freeRam) : 0 ≤ poolThreads pool := by
  apply List.sum_nonneg
  intro x hx
  obtain ⟨e, he, rfl⟩ := List.mem_map.mp hx
  exact threadsAvailable_nonneg e (h e he)

theorem toRun_ram_le (e : PoolEntry) (t : ℤ) (ht : t ≤ threadsAvailable e) :
    (t : ℚ) * WORKER_RAM ≤ e.freeRam := by
  have hc : (0:ℚ) < WORKER_RAM := by norm_num [WORKER_RAM]
  have h1 : (t : ℚ) ≤ e.freeRam / WORKER_RAM := by
    calc (t : ℚ) ≤ ((threadsAvailable e : ℤ) : ℚ) := by exact_mod_cast ht
    _ ≤ e.freeRam / WORKER_RAM := Int.floor_le _
  calc (t : ℚ) * WORKER_RAM ≤ e.freeRam / WORKER_RAM * WORKER_RAM :=
        mul_le_mul_of_nonneg_right h1 (le_of_lt hc)
  _ = e.freeRam := div_mul_cancel₀ _ (ne_of_gt hc)

theorem schedOp_free_nonneg (oracle : ℕ → Bool) (pool : List PoolEntry) :
    ∀ (k : ℕ) (rem : ℤ), (∀ e ∈ pool, 0 ≤ e.freeRam) →
      ∀ e ∈ (scheduleOperation oracle k rem pool).1, 0 ≤ e.freeRam := by
  induction pool with
  | nil => intro k rem _ e he; simp [scheduleOperation] at he
  | cons a rest ih =>
    intro k rem hpool e he
    have ha := hpool a (List.mem_cons_self a rest)
    have hrest := fun x hx => hpool x (List.mem_cons_of_mem a hx)
    rw [scheduleOperation] at he
    by_cases h1 : rem ≤ 0
    · simp only [if_pos h1] at he
      exact hpool e he
    · simp only [if_neg h1] at he
      by_cases h2 : threadsAvailable a ≤ 0
      · simp only [if_pos h2] at he
        rcases List.mem_cons.mp he with rfl | he2
        · exact ha
        · exact ih k rem hrest e he2
      · simp only [if_neg h2] at he
        by_cases h3 : oracle k
        · simp only [h3, if_pos] at he
          rcases List.mem_cons.mp he with rfl | he2
          · have : ((min rem (threadsAvailable a) : ℤ) : ℚ) * WORKER_RAM ≤ a.freeRam :=
              toRun_ram_le a _ (min_le_right _ _)
            simpa using sub_nonneg.mpr this
          · exact ih (k+1) (rem - min rem (threadsAvailable a)) hrest e he2
        · simp only [h3, if_neg, Bool.false_eq_true, not_false_iff] at he
          rcases List.mem_cons.mp he with rfl | he2
          · exact ha
          · exact ih (k+1) rem hrest e he2

theorem schedOp_ram_sum (oracle : ℕ → Bool) (pool : List PoolEntry) :
    ∀ (k : ℕ) (rem : ℤ), (∀ e ∈ pool, e.usedRam + e.freeRam = e.maxRam) →
      ∀ e ∈ (scheduleOperation oracle k rem pool).1,
        e.usedRam + e.freeRam = e.maxRam := by
  induction pool with
  | nil => intro k rem _ e he; simp [scheduleOperation] at he
  | cons a rest ih =>
    intro k rem hpool e he
    have ha := hpool a (List.mem_cons_self a rest)
    have hrest := fun x hx => hpool x (List.mem_cons_of_mem a hx)
    rw [scheduleOperation] at he
    by_cases h1 : rem ≤ 0
    · simp only [if_pos h1] at he
      exact hpool e he
    · simp only [if_neg h1] at he
      by_cases h2 : threadsAvailable a ≤ 0
      · simp only [if_pos h2] at he
        rcases List.mem_cons.mp he with rfl | he2
        · exact ha
        · exact ih k rem hrest e he2
      · simp only [if_neg h2] at he
        by_cases h3 : oracle k
        · simp only [h3, if_pos] at he
          rcases List.mem_cons.mp he with rfl | he2
          · simp only []
            linarith [ha]
          · exact ih (k+1) (rem - min rem (threadsAvailable a)) hrest e he2
        · simp only [h3, if_neg, Bool.false_eq_true, not_false_iff] at he
          rcases List.mem_cons.mp he with rfl | he2
          · exact ha
          · exact ih (k+1) rem hrest e he2

theorem schedOp_count (oracle : ℕ → Bool) (hok : ∀ i, oracle i = true)
    (pool : List PoolEntry) :
    ∀ (k : ℕ) (rem : ℤ), 0 ≤ rem → (∀ e ∈ pool, 0 ≤ e.freeRam) →
      (scheduleOperation oracle k rem pool).2.1 = rem - min rem (poolThreads pool) ∧
      poolFree (scheduleOperation oracle k rem pool).1
        = poolFree pool - ((min rem (poolThreads pool) : ℤ) : ℚ) * WORKER_RAM := by
  induction pool with
  | nil =>
    intro k rem hrem _
    have hmin0 : min rem (0:ℤ) = 0 := by omega
    simp [scheduleOperation, poolThreads, poolFree, hmin0]
  | cons a rest ih =>
    intro k rem hrem hpool
    have ha := hpool a (List.mem_cons_self a rest)
    have hrest := fun x hx => hpool x (List.mem_cons_of_mem a hx)
    have hA : 0 ≤ threadsAvailable a := threadsAvailable_nonneg a ha
    have hP : 0 ≤ poolThreads rest := poolThreads_nonneg rest hrest
    have hpt : poolThreads (a :: rest) = threadsAvailable a + poolThreads rest := by
      simp [poolThreads]
    rw [scheduleOperation]
    by_cases h1 : rem ≤ 0
    · have hr0 : rem = 0 := le_antisymm h1 hrem
      subst hr0
      have hmin : min (0:ℤ) (poolThreads (a :: rest)) = 0 := by omega
      simp [hmin]
    · push_neg at h1
      by_cases h2 : threadsAvailable a ≤ 0
      · have hA0 : threadsAvailable a = 0 := le_antisymm h2 hA
        simp only [if_neg (not_le.mpr h1), if_pos h2]
        obtain ⟨ihr, ihf⟩ := ih k rem hrem hrest
        have hmineq : min rem (poolThreads (a :: rest)) = min rem (poolThreads rest) := by
          omega
        refine ⟨?_, ?_⟩
        · simpa [hmineq] using ihr
        · show poolFree (a :: (scheduleOperation oracle k rem rest).1) = _
          have hexp : poolFree (a :: (scheduleOperation oracle k rem rest).1)
              = a.freeRam + poolFree (scheduleOperation oracle k rem rest).1 := by
            simp [poolFree]
          have hexp2 : poolFree (a :: rest) = a.freeRam + poolFree rest := by
            simp [poolFree]
          rw [hexp, ihf, hexp2, hmineq]
          ring
      · push_neg at h2
        have h3 := hok k
        simp only [if_neg (not_le.mpr h1), if_neg (not_le.mpr h2), h3, if_pos]
        obtain ⟨ihr, ihf⟩ := ih (k+1) (rem - min rem (threadsAvailable a)) (by omega) hrest
        have hmin : min rem (poolThreads (a :: rest))
            = min rem (threadsAvailable a)
              + min (rem - min rem (threadsAvailable a)) (poolThreads rest) := by
          omega
        refine ⟨?_, ?_⟩
        · show (scheduleOperation oracle (k+1)
              (rem - min rem (threadsAvailable a)) rest).2.1 = _
          rw [ihr, hmin]
          ring
        · show poolFree (⟨a.hostname, a.maxRam,
              a.usedRam + ((min rem (threadsAvailable a) : ℤ) : ℚ) * WORKER_RAM,
              a.freeRam - ((min rem (threadsAvailable a) : ℤ) : ℚ) * WORKER_RAM⟩ ::
              (scheduleOperation oracle (k+1)
                (rem - min rem (threadsAvailable a)) rest).1) = _
          have hexp : ∀ (x : PoolEntry) (l : List PoolEntry),
              poolFree (x :: l) = x.freeRam + poolFree l := by
            intro x l; simp [poolFree]
          rw [hexp, ihf, hexp, hmin]
          push_cast
          ring

theorem admitServer_inv (s : ServerInfo) (e : PoolEntry)
    (h : admitServer s = some e) :
    e.usedRam + e.freeRam = e.maxRam ∧ WORKER_RAM < e.freeRam := by
  simp only [admitServer] at h
  by_cases hroot : s.rooted = false
  · rw [if_pos hroot] at h
    exact absurd h (by simp)
  · rw [if_neg hroot] at h
    by_cases hhome : s.hostname = "home"
    · simp only [if_pos hhome] at h
      by_cases hfree : WORKER_RAM < max 0 (s.maxRam - s.usedRam - 20)
      · simp only [if_pos hfree, Option.some.injEq] at h
        subst h
        have hx : 0 < s.maxRam - s.usedRam - 20 := by
          by_contra hx
          push_neg at hx
          rw [max_eq_left hx] at hfree
          norm_num [WORKER_RAM] at hfree
        refine ⟨?_, hfree⟩
        show s.usedRam + 20 + max 0 (s.maxRam - s.usedRam - 20) = s.maxRam
        rw [max_eq_right (le_of_lt hx)]
        ring
      · simp only [if_neg hfree] at h
        exact absurd h (by simp)
    · simp only [if_neg hhome] at h
      by_cases hfree2 : WORKER_RAM < s.maxRam - s.usedRam
      · simp only [if_pos hfree2, Option.some.injEq] at h
        subst h
        refine ⟨?_, hfree2⟩
        show s.usedRam + (s.maxRam - s.usedRam) = s.maxRam
        ring
      · simp only [if_neg hfree2] at h
        exact absurd h (by simp)

theorem buildRamPool_mem_inv (servers : List ServerInfo) (e : PoolEntry)
    (h : e ∈ buildRamPool servers) :
    e.usedRam + e.freeRam = e.maxRam ∧ WORKER_RAM < e.freeRam := by
  rw [buildRamPool, List.mem_insertionSort] at h
  obtain ⟨s, _, hs⟩ := List.mem_filterMap.mp h
  exact admitServer_inv s e hs

/-- C1 (amended): for a pool in which every node has positive free RAM and
with every exec attempt succeeding, `scheduleOperation` for a request of
`U ≥ 0` threads at cost `WORKER_RAM = 1.75` each places exactly
`min U (poolThreads pool)` threads, where `poolThreads` is the sum of the
per-node capacities `⌊freeRam / 1.75⌋`: the remaining count is
`U - min U (poolThreads pool)` (in particular the request is fully placed
whenever `U ≤ poolThreads pool`), the total free RAM of the pool decreases
by exactly the placed count times `1.75`, and no node ends with negative
free RAM.  The original claim used the aggregate bounds `U×c ≤ C` and
`⌊C/c⌋`, which ignore per-node fragmentation; they are refuted by
`scheduleOperation_aggregate_counterexample`. -/
theorem scheduleOperation_conservation (oracle : ℕ → Bool)
    (pool : List PoolEntry) (k : ℕ) (U : ℤ) (hok : ∀ i, oracle i = true)
    (hU : 0 ≤ U) (hfree : ∀ e ∈ pool, 0 < e.freeRam) :
    (scheduleOperation oracle k U pool).2.1 = U - min U (poolThreads pool) ∧
    (U ≤ poolThreads pool → (scheduleOperation oracle k U pool).2.1 = 0) ∧
    poolFree (scheduleOperation oracle k U pool).1
      = poolFree pool - ((min U (poolThreads pool) : ℤ) : ℚ) * WORKER_RAM ∧
    ∀ e ∈ (scheduleOperation oracle k U pool).1, 0 ≤ e.freeRam := by
  have hfree2 : ∀ e ∈ pool, 0 ≤ e.freeRam := fun e he => le_of_lt (hfree e he)
  obtain ⟨h1, h2⟩ := schedOp_count oracle hok pool k U hU hfree2
  refine ⟨h1, ?_, h2, schedOp_free_nonneg oracle pool k U hfree2⟩
  intro hle
  rw [h1, min_eq_left hle]
  ring

/-- C1 witness: the amended conservation theorem applied to a concrete
one-node pool with 7 GB free and a request of 2 threads. -/
theorem scheduleOperation_conservation_witness :
    (scheduleOperation (fun _ => true) 0 2 [⟨"a", 8, 1, 7⟩]).2.1
        = 2 - min 2 (poolThreads [⟨"a", 8, 1, 7⟩]) ∧
    (2 ≤ poolThreads [⟨"a", 8, 1, 7⟩] →
      (scheduleOperation (fun _ => true) 0 2 [⟨"a", 8, 1, 7⟩]).2.1 = 0) ∧
    poolFree (scheduleOperation (fun _ => true) 0 2 [⟨"a", 8, 1, 7⟩]).1
        = poolFree [⟨"a", 8, 1, 7⟩]
          - ((min 2 (poolThreads [⟨"a", 8, 1, 7⟩]) : ℤ) : ℚ) * WORKER_RAM ∧
    ∀ e ∈ (scheduleOperation (fun _ => true) 0 2 [⟨"a", 8, 1, 7⟩]).1,
      0 ≤ e.freeRam :=
  scheduleOperation_conservation (fun _ => true) [⟨"a", 8, 1, 7⟩] 0 2
    (fun _ => rfl) (by norm_num)
    (by
      intro e he
      rw [List.mem_singleton] at he
      subst he
      norm_num)

/-- C1 counterexample: a pool of two nodes with 3 GB free each has total
free capacity `C = 6`, and a request of `U = 3` threads costs
`3 × 1.75 = 5.25 ≤ C`; yet with every exec succeeding one thread remains
unplaced, because each node can host only `⌊3 / 1.75⌋ = 1` thread.  This
refutes both aggregate bounds of the claim: placement is not `U` and not
`⌊C / 1.75⌋ = 3` but the per-node-floor sum `2`. -/
theorem scheduleOperation_aggregate_counterexample :
    (3 : ℚ) * WORKER_RAM ≤ poolFree [⟨"a", 4, 1, 3⟩, ⟨"b", 4, 1, 3⟩] ∧
    (scheduleOperation (fun _ => true) 0 3 [⟨"a", 4, 1, 3⟩, ⟨"b", 4, 1, 3⟩]).2.1
      = 1 := by
  constructor
  · norm_num [poolFree, WORKER_RAM]
  · norm_num [scheduleOperation, threadsAvailable, WORKER_RAM]

/-- C10: every entry of the pool returned by `buildRamPool` satisfies
`usedRam + freeRam = maxRam` and `freeRam ≥ 0` (on `"home"` the 20 GB
reservation is added to `usedRam` and subtracted from `freeRam`), and the
in-place mutations of `scheduleOperation` preserve both properties for
every pool entry, whatever the exec oracle does. -/
theorem ramPool_accounting :
    (∀ (servers : List ServerInfo) (e : PoolEntry), e ∈ buildRamPool servers →
        e.usedRam + e.freeRam = e.maxRam ∧ 0 ≤ e.freeRam) ∧
    (∀ (oracle : ℕ → Bool) (pool : List PoolEntry) (k : ℕ) (rem : ℤ),
        (∀ e ∈ pool, e.usedRam + e.freeRam = e.maxRam ∧ 0 ≤ e.freeRam) →
        ∀ e ∈ (scheduleOperation oracle k rem pool).1,
          e.usedRam + e.freeRam = e.maxRam ∧ 0 ≤ e.freeRam) := by
  constructor
  · intro servers e he
    obtain ⟨hsum, hlt⟩ := buildRamPool_mem_inv servers e he
    exact ⟨hsum, le_of_lt (lt_trans (by norm_num [WORKER_RAM]) hlt)⟩
  · intro oracle pool k rem hpool e he
    exact ⟨schedOp_ram_sum oracle pool k rem (fun x hx => (hpool x hx).1) e he,
      schedOp_free_nonneg oracle pool k rem (fun x hx => (hpool x hx).2) e he⟩

/-- C10 witness: the accounting invariant evaluated on the concrete home
pool entry produced from total 64 GB, used 40 GB, and on a one-step
allocation over it. -/
theorem ramPool_accounting_witness :
    ((60 : ℚ) + 4 = 64 ∧ (0:ℚ) ≤ 4) ∧
    (∀ e ∈ (scheduleOperation (fun _ => true) 0 1 [⟨"home", 64, 60, 4⟩]).1,
      e.usedRam + e.freeRam = e.maxRam ∧ 0 ≤ e.freeRam) :=
  ⟨ramPool_accounting.1 [⟨"home", true, 64, 40⟩] ⟨"home", 64, 60, 4⟩
    (by
      norm_num [buildRamPool, admitServer, WORKER_RAM, List.filterMap_cons,
        List.insertionSort, List.orderedInsert]),
   ramPool_accounting.2 (fun _ => true) [⟨"home", 64, 60, 4⟩] 0 1
    (by
      intro e he
      rw [List.mem_singleton] at he
      subst he
      norm_num)⟩

/-- C3 counterexample: take the growth estimator `g0 m = max 0 (m - 1)`,
an admissible estimate of the units needed to multiply yield by `m` (zero
for multipliers at or below 1, strictly positive above 1).  At the
snapshot `(sec = 5, minSec = 5, money = 0, maxMoney = 1/2)` the money
condition fails (`0 < 0.99 × (1/2)`), yet `getPrepNeeds` returns
`growThreads = 0`, because the multiplier
`maxMoney / max(currentMoney, 1) = 1/2` does not exceed 1.  So
`growThreads` is not strictly positive whenever
`currentMoney < 0.99 × maxMoney`. -/
theorem getPrepNeeds_growPositive_counterexample :
    (0 : ℚ) < (1/2) * (99/100) ∧
    (getPrepNeeds (fun m => max 0 (m - 1)) ⟨5, 5, 0, 1/2⟩).2 = 0 := by
  constructor
  · norm_num
  · norm_num [getPrepNeeds]

/-- C3 (amended): `getPrepNeeds` returns
`weakenThreads = ⌈(currentSec − minSec) / 0.05⌉` when the security gap is
nonnegative and `weakenThreads = 0` when the gap is nonpositive; it
returns `growThreads = 0` whenever `currentMoney ≥ 0.99 × maxMoney`, and
otherwise `growThreads = ⌈g (maxMoney / max currentMoney 1)⌉`, which is
strictly positive provided the multiplier `maxMoney / max(currentMoney, 1)`
exceeds 1 (for instance whenever `maxMoney > 1`) and the growth analysis
`g` is strictly positive on multipliers above 1. -/
theorem getPrepNeeds_spec (g : ℚ → ℚ) (s : TargetSnap) :
    (0 ≤ s.currentSec - s.minSec →
      (getPrepNeeds g s).1 = ⌈(s.currentSec - s.minSec) / WEAKEN_AMOUNT⌉) ∧
    (s.currentSec - s.minSec ≤ 0 → (getPrepNeeds g s).1 = 0) ∧
    (s.maxMoney * (99/100) ≤ s.currentMoney → (getPrepNeeds g s).2 = 0) ∧
    (s.currentMoney < s.maxMoney * (99/100) →
      (getPrepNeeds g s).2 = ⌈g (s.maxMoney / max s.currentMoney 1)⌉) ∧
    (s.currentMoney < s.maxMoney * (99/100) →
      1 < s.maxMoney / max s.currentMoney 1 →
      (∀ m, 1 < m → 0 < g m) →
      0 < (getPrepNeeds g s).2) := by
  refine ⟨?_, ?_, ?_, ?_, ?_⟩
  · intro h
    simp [getPrepNeeds, max_eq_right h]
  · intro h
    simp [getPrepNeeds, max_eq_left h]
  · intro h
    simp [getPrepNeeds, not_lt.mpr h]
  · intro h
    simp [getPrepNeeds, h]
  · intro h hmult hg
    have : (getPrepNeeds g s).2 = ⌈g (s.maxMoney / max s.currentMoney 1)⌉ := by
      simp [getPrepNeeds, h]
    rw [this]
    exact Int.ceil_pos.mpr (hg _ hmult)

/-- C3 witness: the amended theorem applied at the snapshot
`(sec = 10, minSec = 5, money = 10, maxMoney = 100)` with the growth
estimator `g m = m - 1`, which is positive above 1; the multiplier is
`100 / 10 = 10 > 1` and all five clauses are discharged concretely. -/
theorem getPrepNeeds_spec_witness :
    (getPrepNeeds (fun m => m - 1) ⟨10, 5, 10, 100⟩).1
        = ⌈((10:ℚ) - 5) / WEAKEN_AMOUNT⌉ ∧
    (getPrepNeeds (fun m => m - 1) ⟨10, 5, 10, 100⟩).2
        = ⌈(100:ℚ) / max 10 1 - 1⌉ ∧
    0 < (getPrepNeeds (fun m => m - 1) ⟨10, 5, 10, 100⟩).2 :=
  ⟨(getPrepNeeds_spec (fun m => m - 1) ⟨10, 5, 10, 100⟩).1 (by norm_num),
   (getPrepNeeds_spec (fun m => m - 1) ⟨10, 5, 10, 100⟩).2.2.2.1 (by norm_num),
   (getPrepNeeds_spec (fun m => m - 1) ⟨10, 5, 10, 100⟩).2.2.2.2 (by norm_num)
     (by norm_num) (fun m hm => by linarith)⟩

/-- C4: for every target snapshot and every hack fraction,
`calculateBatchSize` returns `hackThreads ≥ 1`; `growThreads` equal to the
ceiling of the growth analysis at the closed-form multiplier
`1 / (1 − hackPercent)`; and
`weakenThreads = ⌈(hackThreads × 0.002 + growThreads × 0.004) / 0.05⌉`,
so that the modeled security delta of the batch minus
`weakenThreads × 0.05` is nonpositive: the weaken count at least offsets
the security raised by the hack and grow operations. -/
theorem calculateBatchSize_spec (hAT g : ℚ → ℚ) (s : TargetSnap) (p : ℚ) :
    1 ≤ (calculateBatchSize hAT g s p).1 ∧
    (calculateBatchSize hAT g s p).2.1 = ⌈g (1 / (1 - p))⌉ ∧
    (calculateBatchSize hAT g s p).2.2
      = ⌈(((calculateBatchSize hAT g s p).1 : ℚ) * HACK_SECURITY_INCREASE
          + ((calculateBatchSize hAT g s p).2.1 : ℚ) * GROW_SECURITY_INCREASE)
          / WEAKEN_AMOUNT⌉ ∧
    ((calculateBatchSize hAT g s p).1 : ℚ) * HACK_SECURITY_INCREASE
        + ((calculateBatchSize hAT g s p).2.1 : ℚ) * GROW_SECURITY_INCREASE
        - ((calculateBatchSize hAT g s p).2.2 : ℚ) * WEAKEN_AMOUNT ≤ 0 := by
  refine ⟨le_max_left _ _, rfl, rfl, ?_⟩
  have hWA : (0:ℚ) < WEAKEN_AMOUNT := by norm_num [WEAKEN_AMOUNT]
  set t : ℚ := ((calculateBatchSize hAT g s p).1 : ℚ) * HACK_SECURITY_INCREASE
      + ((calculateBatchSize hAT g s p).2.1 : ℚ) * GROW_SECURITY_INCREASE with ht
  have hceil : (calculateBatchSize hAT g s p).2.2 = ⌈t / WEAKEN_AMOUNT⌉ := rfl
  have h1 : t / WEAKEN_AMOUNT ≤ ((⌈t / WEAKEN_AMOUNT⌉ : ℤ) : ℚ) := Int.le_ceil _
  have h2 : t ≤ ((⌈t / WEAKEN_AMOUNT⌉ : ℤ) : ℚ) * WEAKEN_AMOUNT :=
    (div_le_iff₀ hWA).mp h1
  rw [hceil]
  linarith

/-- C5: `buildRamPool` admits a rooted non-home server iff its free RAM
`maxRam − usedRam` exceeds `WORKER_RAM = 1.75`; for `"home"` it first
subtracts the fixed 20 GB reservation, clamped at 0, and admits iff the
adjusted free RAM exceeds `1.75`; the returned pool is sorted descending
by free RAM.  In particular `home` with total 64, used 40 is admitted as
`(maxRam 64, usedRam 60, freeRam 4)`, and `home` with total 64, used 50
is excluded. -/
theorem buildRamPool_spec (servers : List ServerInfo) (s : ServerInfo) :
    (s.rooted = true → s.hostname ≠ "home" →
      ((admitServer s).isSome ↔ WORKER_RAM < s.maxRam - s.usedRam)) ∧
    (s.rooted = true → s.hostname = "home" →
      ((admitServer s).isSome ↔ WORKER_RAM < max 0 (s.maxRam - s.usedRam - 20))) ∧
    List.Sorted freeGE (buildRamPool servers) ∧
    buildRamPool [⟨"home", true, 64, 40⟩] = [⟨"home", 64, 60, 4⟩] ∧
    buildRamPool [⟨"home", true, 64, 50⟩] = [] := by
  refine ⟨?_, ?_, ?_, ?_, ?_⟩
  · intro hroot hne
    simp only [admitServer, hroot]
    norm_num [hne]
  · intro hroot hhome
    simp only [admitServer, hroot]
    norm_num [hhome]
  · exact List.sorted_insertionSort freeGE _
  · norm_num [buildRamPool, admitServer, WORKER_RAM, List.filterMap_cons,
      List.insertionSort, List.orderedInsert]
  · norm_num [buildRamPool, admitServer, WORKER_RAM, List.filterMap_cons,
      List.insertionSort, List.orderedInsert]

/-- C5 witness: the admission criteria applied to a concrete rooted
non-home server with 8 GB free and to a concrete home server with 24 GB
free before the reservation. -/
theorem buildRamPool_spec_witness :
    ((admitServer ⟨"n00dles", true, 8, 0⟩).isSome ↔ WORKER_RAM < (8:ℚ) - 0) ∧
    ((admitServer ⟨"home", true, 64, 40⟩).isSome ↔
      WORKER_RAM < max 0 ((64:ℚ) - 40 - 20)) :=
  ⟨(buildRamPool_spec [] ⟨"n00dles", true, 8, 0⟩).1 rfl (by decide),
   (buildRamPool_spec [] ⟨"home", true, 64, 40⟩).2.1 rfl rfl⟩

/-- C6: `getBestTargets` returns at most `count` entries; every returned
target comes from the server list with required hacking skill at most the
skill of the player, nonzero max money, and a hostname that is neither
`"home"` nor prefixed `worker-`; the list is sorted descending by score;
and each score is the steady-state money-per-second estimate
`maxMoney × 0.05 × hackChance / (cycleTime / 1000)` — `cycleTime` being
the longest of the hack, weaken and grow durations in ms — divided by
`1 + prepTime / 3600000`. -/
theorem getBestTargets_spec (servers : List ServerEntry) (skill : ℚ)
    (count : ℕ) :
    (getBestTargets servers skill count).length ≤ count ∧
    (∀ t ∈ getBestTargets servers skill count, ∃ s ∈ servers,
        t.hostname = s.hostname ∧ t.score = calculateTargetScore s ∧
        s.requiredHackingSkill ≤ skill ∧ s.moneyMax ≠ 0 ∧
        s.hostname ≠ "home" ∧ startsWithWorker s.hostname = false) ∧
    List.Sorted scoreGE (getBestTargets servers skill count) ∧
    (∀ s : ServerEntry, calculateTargetScore s =
        s.moneyMax * (1/20) * s.hackChance
          / (max s.hackTime (max s.weakenTime s.growTime) / 1000)
          / (1 + (max 0 (s.hackDifficulty - s.minDifficulty) / WEAKEN_AMOUNT
                    * s.weakenTime
                  + (if s.moneyAvailable < s.moneyMax * (1/2)
                     then s.growTime * 10 else 0)) / 3600000)) := by
  refine ⟨List.length_take_le count _, ?_, ?_, fun s => rfl⟩
  · intro t ht
    have ht2 : t ∈ List.insertionSort scoreGE
        (servers.filterMap (scoreServer skill)) := List.mem_of_mem_take ht
    rw [List.mem_insertionSort] at ht2
    obtain ⟨s, hs, hf⟩ := List.mem_filterMap.mp ht2
    refine ⟨s, hs, ?_⟩
    simp only [scoreServer] at hf
    by_cases h1 : s.hostname = "home" ∨ startsWithWorker s.hostname
    · simp [h1] at hf
    · rw [if_neg h1] at hf
      by_cases h2 : skill < s.requiredHackingSkill
      · simp [h2] at hf
      · rw [if_neg h2] at hf
        by_cases h3 : s.moneyMax = 0
        · simp [h3] at hf
        · rw [if_neg h3, Option.some.injEq] at hf
          subst hf
          push_neg at h1
          exact ⟨rfl, rfl, not_lt.mp h2, h3, h1.1, by simpa using h1.2⟩
  · exact List.Pairwise.sublist (List.take_sublist count _)
      (List.sorted_insertionSort scoreGE _)

/-- C6 witness: the membership clause of the theorem applied to a concrete
one-server list, exhibiting the filter and score facts for the single
returned target. -/
theorem getBestTargets_spec_witness :
    ∃ s ∈ [(⟨"n00dles", 1, 100, 3, 1, 100, 10, 40, 20, 1/2⟩ : ServerEntry)],
      (⟨"n00dles",
          calculateTargetScore ⟨"n00dles", 1, 100, 3, 1, 100, 10, 40, 20, 1/2⟩⟩
        : Scored).hostname = s.hostname ∧
      (⟨"n00dles",
          calculateTargetScore ⟨"n00dles", 1, 100, 3, 1, 100, 10, 40, 20, 1/2⟩⟩
        : Scored).score = calculateTargetScore s ∧
      s.requiredHackingSkill ≤ 100 ∧ s.moneyMax ≠ 0 ∧ s.hostname ≠ "home" ∧
      startsWithWorker s.hostname = false :=
  (getBestTargets_spec [⟨"n00dles", 1, 100, 3, 1, 100, 10, 40, 20, 1/2⟩]
      100 5).2.1
    ⟨"n00dles",
      calculateTargetScore ⟨"n00dles", 1, 100, 3, 1, 100, 10, 40, 20, 1/2⟩⟩
    (by
      norm_num [getBestTargets, scoreServer, startsWithWorker,
        List.filterMap_cons, List.insertionSort, List.orderedInsert])

/-- C7: for every target snapshot, growth estimator, exec oracle and pool,
whenever `getPrepNeeds` reports a nonzero weaken count,
`schedulePrepOperations` issues exactly one allocation call, for weaken
threads, and never a grow call in that cycle; a grow call can only be
issued when the weaken count is zero (or negative). -/
theorem schedulePrepOperations_priority (g : ℚ → ℚ) (s : TargetSnap)
    (oracle : ℕ → Bool) (k : ℕ) (pool : List PoolEntry) :
    (0 < (getPrepNeeds g s).1 →
      (schedulePrepOperations g s oracle k pool).1
        = [(OpType.weaken, (getPrepNeeds g s).1)]) ∧
    (∀ c ∈ (schedulePrepOperations g s oracle k pool).1,
      c.1 = OpType.grow → (getPrepNeeds g s).1 ≤ 0) := by
  constructor
  · intro h
    simp [schedulePrepOperations, h]
  · intro c hc hgrow
    by_cases h1 : 0 < (getPrepNeeds g s).1
    · simp [schedulePrepOperations, h1] at hc
      rw [hc] at hgrow
      exact absurd hgrow (by simp)
    · exact le_of_not_lt h1

/-- C7 witness: the priority theorem at a concrete unprepped snapshot with
a positive security gap (weaken count 100): the only call issued is the
weaken call. -/
theorem schedulePrepOperations_priority_witness :
    (schedulePrepOperations (fun _ => 0) ⟨10, 5, 100, 100⟩ (fun _ => true) 0 []).1
      = [(OpType.weaken, (getPrepNeeds (fun _ => 0) ⟨10, 5, 100, 100⟩).1)] :=
  (schedulePrepOperations_priority (fun _ => 0) ⟨10, 5, 100, 100⟩
      (fun _ => true) 0 []).1
    (by norm_num [getPrepNeeds, WEAKEN_AMOUNT])

/-- C8: for every snapshot, every pair of external estimators, every exec
oracle (including oracles under which any subset of the exec attempts
fail) and every pool, `scheduleHWGWBatch` issues exactly the three
allocation calls hack, then grow, then weaken, with the thread counts of
`calculateBatchSize`; and the resulting pool is the one obtained by
chaining the three `scheduleOperation` calls in that fixed order, each on
the pool left by the previous one — an earlier failed or empty allocation
never prevents the later calls. -/
theorem scheduleHWGWBatch_order (hAT g : ℚ → ℚ) (s : TargetSnap)
    (oracle : ℕ → Bool) (k : ℕ) (pool : List PoolEntry) :
    (scheduleHWGWBatch hAT g s oracle k pool).1
      = [(OpType.hack, (calculateBatchSize hAT g s HACK_PERCENT).1),
         (OpType.grow, (calculateBatchSize hAT g s HACK_PERCENT).2.1),
         (OpType.weaken, (calculateBatchSize hAT g s HACK_PERCENT).2.2)] ∧
    (scheduleHWGWBatch hAT g s oracle k pool).2.1
      = (scheduleOperation oracle
          (scheduleOperation oracle
            (scheduleOperation oracle k
              (calculateBatchSize hAT g s HACK_PERCENT).1 pool).2.2.2
            (calculateBatchSize hAT g s HACK_PERCENT).2.1
            (scheduleOperation oracle k
              (calculateBatchSize hAT g s HACK_PERCENT).1 pool).1).2.2.2
          (calculateBatchSize hAT g s HACK_PERCENT).2.2
          (scheduleOperation oracle
            (scheduleOperation oracle k
              (calculateBatchSize hAT g s HACK_PERCENT).1 pool).2.2.2
            (calculateBatchSize hAT g s HACK_PERCENT).2.1
            (scheduleOperation oracle k
              (calculateBatchSize hAT g s HACK_PERCENT).1 pool).1).1).1 :=
  ⟨rfl, rfl⟩

/-- C9: the pruning step of `getActiveOperations` keeps a tracked entry
iff its pid is in the fleet-wide live pid list: an entry is removed the
first status cycle in which its pid is absent from the live set,
regardless of elapsed time (no time appears in the condition), and an
entry whose pid is live is never removed — the live-process diff is the
only removal path. -/
theorem pruneOperationStartTimes_mem (tracked : List (ℕ × OpInfo))
    (live : List ℕ) (pid : ℕ) (info : OpInfo) :
    (pid, info) ∈ pruneOperationStartTimes tracked live ↔
      (pid, info) ∈ tracked ∧ pid ∈ live := by
  simp [pruneOperationStartTimes, List.mem_filter]
